import Mathlib

/-!
Verification development for the finetune target-block core
(`finetune/nn/target_blocks.py`).

Real-valued tensors are embedded as (lists of) rationals; tensor shapes
become list lengths.  The exponential function used inside the CRF and
softmax kernels is embedded as a parameter `E : ℚ → ℚ` together with the
positivity hypothesis `∀ x, 0 < E x`, the only property of `exp` these
results use.  External library kernels (the per-token softmax
cross-entropy of `tf.compat.v1.losses.sparse_softmax_cross_entropy`, and
`crf_log_likelihood` where only its call structure matters) are embedded
as function parameters.
-/

namespace TargetBlocks

/-- Dot product of two rational vectors (`tf.matmul` on a single row). -/
def dot (a b : List ℚ) : ℚ := (List.zipWith (· * ·) a b).sum

/-- Mean of a list of rationals (`tf.reduce_mean`); division by zero on the
empty list yields `0` in `ℚ`. -/
def meanQ (l : List ℚ) : ℚ := l.sum / (l.length : ℚ)

/-- Squared L2 norm of a vector; `tf.norm v = Real.sqrt (sqNorm v)`. -/
def sqNorm (v : List ℚ) : ℚ := (v.map (fun x => x * x)).sum

/-! ### Class-weight rescaling (`_apply_class_weight`,
`_apply_multilabel_class_weight`, `class_reweighting`) -/

/-- Pre-normalization weights of `_apply_class_weight`
(target_blocks.py:139-141): for one-hot `targets` (batch x n_targets),
`weights_b = sum_c class_weights_c * targets_b_c`. -/
def rawClassWeights (class_weights : List ℚ) (targets : List (List ℚ)) : List ℚ :=
  targets.map (fun t => (List.zipWith (· * ·) class_weights t).sum)

/-- Effective per-example weights of `_apply_class_weight`
(target_blocks.py:142-144): the raw weights rescaled by
`prod(shape(weights)) / sum(weights)`; `weights` is one-dimensional of
length batch, so `prod(shape)` is the batch size. -/
def applyClassWeight (class_weights : List ℚ) (targets : List (List ℚ)) : List ℚ :=
  let weights := rawClassWeights class_weights targets
  weights.map (fun w => w * ((weights.length : ℚ) / weights.sum))

/-- Pre-normalization weights of `_apply_multilabel_class_weight`
(target_blocks.py:152-157): entrywise
`class_weights_c * targets_b_c + 1 * (1 - targets_b_c)`. -/
def rawMultilabelWeights (class_weights : List ℚ) (targets : List (List ℚ)) :
    List (List ℚ) :=
  targets.map (fun t =>
    List.zipWith (fun w tc => w * tc + 1 * (1 - tc)) class_weights t)

/-- Number of entries of a batch x n_targets weight tensor
(`tf.reduce_prod(tf.shape(weights))` for a rectangular tensor). -/
def numEntries (w : List (List ℚ)) : ℕ := (w.map List.length).sum

/-- Effective weights of `_apply_multilabel_class_weight`
(target_blocks.py:158-160): the raw entrywise weights rescaled by
`prod(shape(weights)) / sum(weights)`; `weights` is two-dimensional
batch x n_targets, so `prod(shape)` is `batch * n_targets`. -/
def applyMultilabelClassWeight (class_weights : List ℚ) (targets : List (List ℚ)) :
    List (List ℚ) :=
  let weights := rawMultilabelWeights class_weights targets
  let scale := ((numEntries weights : ℚ) / (weights.map List.sum).sum)
  weights.map (fun row => row.map (fun w => w * scale))

/-- The rescaled gradient of `class_reweighting` (target_blocks.py:347-357)
before the norm correction: `new_g = g * class_weights` entrywise. -/
def newGrad (class_weights g : List ℚ) : List ℚ :=
  List.zipWith (· * ·) g class_weights

/-- The gradient returned by `class_reweighting` (target_blocks.py:351-353):
`new_g * (norm g / norm new_g)`.  The scalar `r` stands for the quotient
`tf.norm g / tf.norm new_g`, characterised by
`r * r * sqNorm (newGrad cw g) = sqNorm g` together with `0 ≤ r`. -/
def classReweightGrad (class_weights g : List ℚ) (r : ℚ) : List ℚ :=
  (newGrad class_weights g).map (fun x => x * r)

/-! ### SSL final-loss assembly (`vat`, `ict`, `mean_teacher`) -/

/-- Modelled from the spec: `warmup_constant` from
`finetune.optimizers.learning_rate_schedules` is not under `src/`; per
spec section 4.4 the SSL coefficient "ramps up via a warmup schedule as a
function of training-progress fraction", i.e. linearly up to the warmup
fraction and constant 1 afterwards. -/
def warmupConstant (x warmup : ℚ) : ℚ := min 1 (x / warmup)

/-- The SSL loss coefficient computed by `ict` (target_blocks.py:1002-1007)
and `mean_teacher` (target_blocks.py:1141-1146):
`max(0, ssl_loss_coef * warmup_constant(training_fraction, warmup=0.25))`. -/
def sslLossCoef (ssl_loss_coef frac : ℚ) : ℚ :=
  max 0 (ssl_loss_coef * warmupConstant frac (1 / 4))

/-- Final loss of `ict` (target_blocks.py:1010):
`reduce_mean(loss) + loss_coef * u_loss` where `loss_coef` is the
warmup-scheduled coefficient. -/
def ictFinalLoss (supLoss : List ℚ) (uLoss ssl_loss_coef frac : ℚ) : ℚ :=
  meanQ supLoss + sslLossCoef ssl_loss_coef frac * uLoss

/-- Final loss of `mean_teacher` (target_blocks.py:1149):
`reduce_mean(loss) + config.ssl_loss_coef * u_loss`.  The warmup-scheduled
`loss_coef` computed on lines 1141-1146 is only logged, never applied, so
`frac` does not occur on the right-hand side. -/
def meanTeacherFinalLoss (supLoss : List ℚ) (uLoss ssl_loss_coef frac : ℚ) : ℚ :=
  meanQ supLoss + ssl_loss_coef * uLoss

/-- Final loss of `vat` (target_blocks.py:712-713):
`reduce_mean(loss) + config.ssl_loss_coef * adv_loss`; no warmup schedule
is computed in `vat` at all. -/
def vatFinalLoss (supLoss : List ℚ) (advLoss ssl_loss_coef : ℚ) : ℚ :=
  meanQ supLoss + ssl_loss_coef * advLoss

/-! ### TSA degenerate-batch guard (`vat` lines 706-713,
`mean_teacher` lines 1135-1149) -/

/-- The operation `tf.reduce_mean` as a fallible map: the mean of an empty tensor
is NaN, embedded as `none`. -/
def meanOpt (l : List ℚ) : Option ℚ :=
  if l.isEmpty then none else some (meanQ l)

/-- Supervised component of `vat`/`ict`/`mean_teacher` under TSA: the
per-example loss vector of the TSA-filtered batch passes through
`tf.cond(tf.equal(tf.shape(targets)[0], 0), lambda: 0.0, lambda: loss)`
(target_blocks.py:706-710) and then `tf.reduce_mean`. -/
def tsaGuardedSupLoss (filteredNll : List ℚ) : Option ℚ :=
  if filteredNll.length = 0 then some 0 else meanOpt filteredNll

/-- Loss returned by `vat` with a TSA method configured, as a function of
the per-example NLL vector of the TSA-filtered labeled batch and the
adversarial loss (target_blocks.py:706-713). -/
def vatReturnedLoss (filteredNll : List ℚ) (advLoss ssl_loss_coef : ℚ) : Option ℚ :=
  (tsaGuardedSupLoss filteredNll).map (fun s => s + ssl_loss_coef * advLoss)

/-- Loss returned by `mean_teacher` with a TSA method configured
(target_blocks.py:1135-1149). -/
def meanTeacherReturnedLoss (filteredNll : List ℚ) (uLoss ssl_loss_coef : ℚ) :
    Option ℚ :=
  (tsaGuardedSupLoss filteredNll).map (fun s => s + ssl_loss_coef * uLoss)

/-! ### Regressor (`regressor`, target_blocks.py:280-296) -/

/-- Loss value of the regressor: `tf.nn.l2_loss` reduces to a scalar while
`tf.abs` keeps the elementwise shape. -/
inductive RegLoss where
  | scalar (v : ℚ)
  | elementwise (v : List ℚ)
  deriving DecidableEq

/-- The Python method `str.upper()` on the ASCII configuration strings involved. -/
def pyUpper (s : String) : String := String.mk (s.data.map Char.toUpper)

/-- Loss branch of `regressor` (target_blocks.py:286-295): `tf.nn.l2_loss
(outputs - targets)` (half the sum of squares) for `"L2"`, elementwise
`tf.abs(outputs - targets)` for `"L1"`, comparison after `.upper()`, and a
`FinetuneError` (embedded as `Except.error` with the format-string message)
for anything else, raised during this call. -/
def regressorLoss (regression_loss : String) (outputs targets : List ℚ) :
    Except String RegLoss :=
  if pyUpper regression_loss = "L2" then
    Except.ok (RegLoss.scalar
      ((List.zipWith (fun o t => (o - t) * (o - t)) outputs targets).sum / 2))
  else if pyUpper regression_loss = "L1" then
    Except.ok (RegLoss.elementwise
      (List.zipWith (fun o t => |o - t|) outputs targets))
  else
    Except.error
      ("regression_loss needs to be either L1 or L2, instead it is "
        ++ regression_loss)

/-! ### Device-name resolution in the CRF branches (`vat` line 691,
`ict` line 980, `mean_teacher` line 1120) -/

/-- Resolution of a bare Python name against the set of local names bound
at the point of use; an unbound name is a `NameError`, embedded as
`none`. -/
def resolveName (env : List String) (x : String) : Option String :=
  if x ∈ env then some x else none

/-- The device argument `"CPU:0" if train else device` of the CRF branch:
Python evaluates `device` only when `train` is false. -/
def crfDeviceArg (train : Bool) (env : List String) : Option String :=
  if train then some "CPU:0" else resolveName env "device"

/-- Local names bound in `vat` above line 691 (parameters and assigned
names of target_blocks.py:523-689); `device` is never assigned. -/
def vatLocalNames : List String :=
  ["hidden", "targets", "n_targets", "config", "pad_id", "multilabel",
   "train", "reuse", "lengths", "use_crf", "embedding_out", "kwargs",
   "layer", "logits", "loss", "default_lengths", "target_shape",
   "batch_size", "all_logits", "all_lengths", "class_weights",
   "transition_params", "after_embeddings", "after_transformer", "out_fn",
   "pert_shape", "top_k_targets", "crf_probs", "softmax_probs", "prob_fn",
   "adv_vector", "kl_div", "mask", "probs", "adv_logits", "adv_probs",
   "adv_loss", "gradient"]

/-- Local names bound in `mean_teacher` above line 1120
(target_blocks.py:1020-1118); `device` is never assigned. -/
def meanTeacherLocalNames : List String :=
  ["hidden", "targets", "n_targets", "config", "pad_id", "multilabel",
   "train", "reuse", "lengths", "use_crf", "embedding_out", "kwargs",
   "layer", "logits", "loss", "default_lengths", "target_shape",
   "all_logits", "all_lengths", "class_weights", "transition_params",
   "scope", "featurizer_fn", "custom_getter", "update_ops",
   "featurizer_state", "ema_logits", "u_loss"]

/-- Local names bound in `ict` above line 980 (target_blocks.py:844-978);
`device = logits.device` is assigned on line 898. -/
def ictLocalNames : List String :=
  ["hidden", "targets", "n_targets", "config", "pad_id", "multilabel",
   "train", "reuse", "lengths", "use_crf", "embedding_out", "kwargs",
   "layer", "logits", "loss", "default_lengths", "device", "target_shape",
   "u_logits", "u_lengths", "u_embed", "u_batch_size", "class_weights",
   "transition_params", "scope", "featurizer_fn", "shuffle_indicies",
   "beta_dist", "lam", "shuffle_input", "mix_input", "featurizer_state",
   "mix_logits", "custom_getter", "update_ops", "ema_logits",
   "ema_shuffle_logits", "ema_mix_logits", "u_loss"]

/-! ### CRF likelihood in the probability domain

`crf_log_likelihood` (tensorflow_addons) computes
`score(tags) - logsumexp over all tag sequences`.  Exponentiating, the
likelihood of a tag sequence is a product of exponentiated scores divided
by the partition sum; the embedding works with these products directly,
with `E` standing for the exponential. -/

/-- All label sequences of length `L` over labels `0..n-1`. -/
def allPaths (n : Nat) : Nat → List (List Nat)
  | 0 => [[]]
  | Nat.succ L =>
      (List.range n).flatMap (fun c => (allPaths n L).map (fun p => c :: p))

/-- Unary factor of a path weight: the product over tokens of the
exponentiated logit of the chosen label. -/
def unaryWeight (E : ℚ → ℚ) (logits : List (List ℚ)) (path : List Nat) : ℚ :=
  (List.zipWith (fun row c => E (row.getD c 0)) logits path).prod

/-- Pairwise factor of a path weight: the product over consecutive label
pairs of the exponentiated transition score. -/
def transWeight (E : ℚ → ℚ) (trans : List (List ℚ)) : List Nat → ℚ
  | i :: j :: rest => E ((trans.getD i []).getD j 0) * transWeight E trans (j :: rest)
  | _ => 1

/-- Weight (exponentiated score) of one tag sequence. -/
def pathWeight (E : ℚ → ℚ) (logits : List (List ℚ)) (trans : List (List ℚ))
    (path : List Nat) : ℚ :=
  unaryWeight E logits path * transWeight E trans path

/-- The CRF partition function in the probability domain: `exp` of the
`crf_log_norm` normalizer of `crf_log_likelihood`. -/
def crfZ (E : ℚ → ℚ) (n : Nat) (logits : List (List ℚ)) (trans : List (List ℚ))
    (L : Nat) : ℚ :=
  ((allPaths n L).map (pathWeight E logits trans)).sum

/-- The value `exp (crf_log_likelihood logits tags lengths trans)`: the probability
the CRF assigns to the tag sequence, honoring `sequence_lengths` by
truncating both logits and tags at `len`.  The sequence labeler loss is
its negative logarithm, so `loss ≥ 0 ↔ seqProb ≤ 1`. -/
def seqProb (E : ℚ → ℚ) (n : Nat) (logits : List (List ℚ))
    (trans : List (List ℚ)) (len : Nat) (tags : List Nat) : ℚ :=
  pathWeight E (logits.take len) trans (tags.take len) /
    crfZ E n (logits.take len) trans len

/-! ### Sequence labeler (`sequence_labeler`, target_blocks.py:398-521) -/

/-- A dense layer (`tf.compat.v1.layers.dense` / `tf.keras.layers.Dense`):
one weight row and one bias entry per output unit. -/
def dense (W : List (List ℚ)) (c : List ℚ) (x : List ℚ) : List ℚ :=
  List.zipWith (fun wrow cj => dot x wrow + cj) W c

/-- The output bundle of the sequence labeler: per-token logits, the
per-sequence CRF likelihoods (the returned `losses` vector is their
elementwise negative logarithm), and the `predict_params` entries. -/
structure SeqLabelerOut where
  logits : List (List (List ℚ))
  seqProbs : List ℚ
  transitionMatrix : List (List ℚ)
  sequenceLength : List Nat

/-- The sequence labeler on the non-multilabel CRF path with targets
present and no class weights.  `refine` stands for the pre-projection step
of `seq_lab_internal`: the identity for bidirectional base models, the
extra self-attention block with residual connection and layer norm for
unidirectional ones (shape-preserving either way, target_blocks.py:405-426);
the dense projection and the CRF are identical in both branches. -/
def sequenceLabeler (E : ℚ → ℚ) (refine : List (List ℚ) → List (List ℚ))
    (W : List (List ℚ)) (c : List ℚ) (trans : List (List ℚ)) (n : Nat)
    (hidden : List (List (List ℚ))) (targets : List (List Nat))
    (lengths : List Nat) : SeqLabelerOut :=
  let logits := hidden.map (fun seqrow => (refine seqrow).map (dense W c))
  { logits := logits
    seqProbs := List.zipWith (fun lg tl => seqProb E n lg trans tl.2 tl.1)
      logits (targets.zip lengths)
    transitionMatrix := trans
    sequenceLength := lengths }

/-! ### Pseudo-label retention (`pseudo_label`, target_blocks.py:786-810) -/

/-- One unlabeled row: its logits, its non-padding length, and its decoded
tag sequence (`u_targets` from `sequence_decode`). -/
structure URow where
  logits : List (List ℚ)
  len : Nat
  tags : List Nat

/-- Decoded-sequence probability in CRF mode
(target_blocks.py:792-796): `exp (crf_log_likelihood ...)`. -/
def uSeqProbCrf (E : ℚ → ℚ) (n : Nat) (trans : List (List ℚ)) (r : URow) : ℚ :=
  seqProb E n r.logits trans r.len r.tags

/-- Modelled from the spec: in non-CRF mode the probabilities returned by
`sequence_decode` (in `finetune.nn.crf`, not under `src/`) are the
per-token softmax distributions over classes (spec section 4.4 calls the
non-CRF probability mode "softmax"). -/
def softmaxRow (E : ℚ → ℚ) (row : List ℚ) : List ℚ :=
  row.map (fun x => E x / (row.map E).sum)

/-- The reduction `tf.reduce_max` over the last axis. -/
def reduceMax : List ℚ → ℚ
  | [] => 0
  | x :: xs => xs.foldl max x

/-- Decoded-sequence probability in non-CRF mode
(target_blocks.py:797-799): the per-token max softmax probability, averaged
over the sequence. -/
def uSeqProbSoft (E : ℚ → ℚ) (r : URow) : ℚ :=
  meanQ (r.logits.map (fun row => reduceMax (softmaxRow E row)))

/-- Threshold filtering (target_blocks.py:801-806):
`mask = tf.greater(u_seq_probs, pseudo_thresh)` then `tf.boolean_mask`. -/
def pseudoRetain (prob : URow → ℚ) (thresh : ℚ) (rows : List URow) : List URow :=
  rows.filter (fun r => decide (thresh < prob r))

/-- The function `pseudo_label` concatenates the retained unlabeled rows onto the
labeled batch (target_blocks.py:808-810). -/
def pseudoLabelBatch (labeled : List URow) (prob : URow → ℚ) (thresh : ℚ)
    (unlabeled : List URow) : List URow :=
  labeled ++ pseudoRetain prob thresh unlabeled

/-! ### CRF-disabled weighted cross-entropy (target_blocks.py:507-515) -/

/-- One row of the weight tensor
`tf.sequence_mask(lengths, maxlen) / tf.expand_dims(lengths, -1)`. -/
def maskRow (len maxlen : Nat) : List ℚ :=
  (List.range maxlen).map (fun t => (if t < len then (1 : ℚ) else 0) / (len : ℚ))

/-- The full weight tensor, one row per sequence. -/
def maskWeights (lengths : List Nat) (maxlen : Nat) : List (List ℚ) :=
  lengths.map (fun len => maskRow len maxlen)

/-- The per-token cross-entropy tensor; `ce` stands for the softmax
cross-entropy kernel of the library, a function of the logit row and the
integer label of one token only. -/
def ceTensor (ce : List ℚ → Nat → ℚ) (logits : List (List (List ℚ)))
    (targets : List (List Nat)) : List (List ℚ) :=
  List.zipWith (fun ls ts => List.zipWith ce ls ts) logits targets

/-- Sum of the elementwise product of a weight tensor and a loss tensor. -/
def weightedSum (w x : List (List ℚ)) : ℚ :=
  (List.zipWith (fun wr xr => (List.zipWith (· * ·) wr xr).sum) w x).sum

/-- Number of nonzero entries of the weight tensor. -/
def countNonzero (w : List (List ℚ)) : ℕ :=
  (w.map (fun r => (r.filter (fun q => decide (q ≠ 0))).length)).sum

/-- The width `tf.shape(targets)[1]`, the padded sequence dimension. -/
def maxlenOf (targets : List (List Nat)) : ℕ := (targets.headD []).length

/-- The CRF-disabled loss branch:
`tf.compat.v1.losses.sparse_softmax_cross_entropy(targets, logits,
weights)` with its default SUM_BY_NONZERO_WEIGHTS reduction — the sum of
weighted per-token losses divided by the number of nonzero weights. -/
def seqXentLoss (ce : List ℚ → Nat → ℚ) (logits : List (List (List ℚ)))
    (targets : List (List Nat)) (lengths : List Nat) : ℚ :=
  weightedSum (maskWeights lengths (maxlenOf targets)) (ceTensor ce logits targets) /
    (countNonzero (maskWeights lengths (maxlenOf targets)) : ℚ)

/-! ### Consistency losses (`mean_teacher`, `ict`) -/

/-- Scalar multiplication of a per-example (seq x dim) tensor. -/
def scaleT (a : ℚ) (x : List (List ℚ)) : List (List ℚ) :=
  x.map (fun r => r.map (fun v => a * v))

/-- Elementwise addition of per-example tensors. -/
def addT (x y : List (List ℚ)) : List (List ℚ) :=
  List.zipWith (fun r s => List.zipWith (· + ·) r s) x y

/-- Linear interpolation `lam * x + (1 - lam) * y` of per-example
tensors. -/
def mixT (lam : ℚ) (x y : List (List ℚ)) : List (List ℚ) :=
  addT (scaleT lam x) (scaleT (1 - lam) y)

/-- The gather `tf.gather(xs, idx, axis=0)`. -/
def gatherT (xs : List (List (List ℚ))) (idx : List Nat) :
    List (List (List ℚ)) :=
  idx.map (fun i => xs.getD i [])

/-- The kernel `tf.keras.losses.MSE`: mean over the last axis of the squared
difference. -/
def mseLast (a b : List ℚ) : ℚ :=
  meanQ (List.zipWith (fun x y => (x - y) * (x - y)) a b)

/-- The keras MSE of two (batch x seq x dim) tensors followed by the
following `tf.reduce_mean` of the engines. -/
def mse3 (a b : List (List (List ℚ))) : ℚ :=
  meanQ ((List.zipWith (fun ar br => List.zipWith mseLast ar br) a b).flatten)

/-- The `mean_teacher` consistency loss (target_blocks.py:1096-1110): live
logits `layer(feat x)` on all rows against EMA-teacher logits
`layer(featEma x)` on the same rows.  `feat`/`featEma` stand for the
featurizer forward pass with live and with EMA shadow parameters. -/
def meanTeacherULoss (feat featEma : List (List ℚ) → List (List ℚ))
    (W : List (List ℚ)) (c : List ℚ) (batch : List (List (List ℚ))) : ℚ :=
  mse3 (batch.map (fun x => (feat x).map (dense W c)))
    (batch.map (fun x => (featEma x).map (dense W c)))

/-- The `ict` consistency loss (target_blocks.py:925-970): student logits on
Beta-mixed inputs against the interpolation of EMA-teacher logits on the
original inputs.  The mixing coefficients are sampled once for the student
mix (line 935, `lamStudent`) and again, independently, for the teacher mix
(line 953, `lamTeacher`); `perm` is `shuffle_indicies`. -/
def ictULoss (feat featEma : List (List ℚ) → List (List ℚ))
    (W : List (List ℚ)) (c : List ℚ) (batch : List (List (List ℚ)))
    (perm : List Nat) (lamStudent lamTeacher : List ℚ) : ℚ :=
  let mixInput := List.zipWith (fun lx y => mixT lx.1 lx.2 y)
      (lamStudent.zip batch) (gatherT batch perm)
  let mixLogits := mixInput.map (fun x => (feat x).map (dense W c))
  let emaLogits := batch.map (fun x => (featEma x).map (dense W c))
  let emaMix := List.zipWith (fun lx y => mixT lx.1 lx.2 y)
      (lamTeacher.zip emaLogits) (gatherT emaLogits perm)
  mse3 mixLogits emaMix

/-! ### Multilabel decomposition (target_blocks.py:447-485) -/

/-- Column `i` of the logits tensor
(`tf.unstack(logits, n_targets, axis=-1)[i]`). -/
def logitsColumn (logits : List (List (List ℚ))) (i : Nat) : List (List ℚ) :=
  logits.map (fun s => s.map (fun r => r.getD i 0))

/-- The stack `tf.stack((a, b), axis=-1)` of two batch x seq tensors. -/
def stack2 (a b : List (List ℚ)) : List (List (List ℚ)) :=
  List.zipWith (fun ar br => List.zipWith (fun x y => [x, y]) ar br) a b

/-- The binary chain logits for class `i`:
`tf.stack((logits_individual[pad_id], logits_individual[i]), axis=-1)`. -/
def chainLogits (logits : List (List (List ℚ))) (pad i : Nat) :
    List (List (List ℚ)) :=
  stack2 (logitsColumn logits pad) (logitsColumn logits i)

/-- State threaded through the multilabel loop: the growing
`transition_params` and `logits` lists and the accumulated loss. -/
structure MultilabelState where
  transitionParams : List (List (List ℚ))
  logitsList : List (List (List (List ℚ)))
  loss : ℚ

/-- One iteration of the multilabel loop (target_blocks.py:453-475),
CRF path, targets present, no class weights: append the class transition
matrix `T i` (`Transition_matrix_i`) and the class chain logits, then for
non-pad classes subtract `crf_log_likelihood(logits_i,
targets_individual[i], lengths, transition_params[-1])`, where
`logits_i = logits[i]` indexes the list built so far.  `ll` stands for the
`crf_log_likelihood` kernel of tensorflow_addons and `tgt i` for
`targets_individual[i]`. -/
def multilabelStep
    (ll : List (List (List ℚ)) → List (List Nat) → List Nat → List (List ℚ) → ℚ)
    (T : Nat → List (List ℚ)) (logits : List (List (List ℚ)))
    (tgt : Nat → List (List Nat)) (lengths : List Nat) (pad : Nat)
    (st : MultilabelState) (i : Nat) : MultilabelState :=
  let tps := st.transitionParams ++ [T i]
  let lgs := st.logitsList ++ [chainLogits logits pad i]
  { transitionParams := tps
    logitsList := lgs
    loss :=
      if i ≠ pad then
        st.loss - ll (lgs.getD i []) (tgt i) lengths (tps.getLastD [])
      else st.loss }

/-- The whole multilabel loop `for i in range(n_targets)`
(target_blocks.py:453-475), starting from empty lists and `loss = 0.0`. -/
def multilabelLoop
    (ll : List (List (List ℚ)) → List (List Nat) → List Nat → List (List ℚ) → ℚ)
    (T : Nat → List (List ℚ)) (logits : List (List (List ℚ)))
    (tgt : Nat → List (List Nat)) (lengths : List Nat) (pad n : Nat) :
    MultilabelState :=
  (List.range n).foldl (multilabelStep ll T logits tgt lengths pad)
    { transitionParams := [], logitsList := [], loss := 0 }

/-! ## Shared helper lemmas -/

theorem sum_map_mul_const (l : List ℚ) (c : ℚ) :
    (l.map (fun x => x * c)).sum = l.sum * c := by
  induction l with
  | nil => simp
  | cons x xs ih => simp [ih]; ring

theorem sum_map_sum_map_mul_const (w : List (List ℚ)) (c : ℚ) :
    ((w.map (fun row => row.map (fun x => x * c))).map List.sum).sum
      = (w.map List.sum).sum * c := by
  induction w with
  | nil => simp
  | cons r rs ih =>
      simp only [List.map_cons, List.sum_cons] at ih ⊢
      rw [sum_map_mul_const, ih]
      ring

theorem sqNorm_map_mul (v : List ℚ) (r : ℚ) :
    sqNorm (v.map (fun x => x * r)) = sqNorm v * (r * r) := by
  induction v with
  | nil => simp [sqNorm]
  | cons x xs ih => simp [sqNorm, List.sum_cons] at ih ⊢; rw [ih]; ring

/-! ## C1: class-weight normalization -/

/-- C1 (counterexample): the claim says the sum of effective per-example
weights equals the batch size on the multilabel path as well.  For
`class_weights = [2, 4]` and the one-example batch `targets = [[1, 0]]`,
`_apply_multilabel_class_weight` produces weights `[4/3, 2/3]` whose total
is `2` (the number of weight entries, batch x n_targets) while the batch
size is `1`. -/
theorem C1_counterexample :
    ((applyMultilabelClassWeight [2, 4] [[1, 0]]).map List.sum).sum = 2 ∧
    (([[(1 : ℚ), 0]]).length : ℚ) = 1 ∧ (2 : ℚ) ≠ 1 := by
  refine ⟨?_, by simp, by norm_num⟩
  norm_num [applyMultilabelClassWeight, rawMultilabelWeights, numEntries,
    List.zipWith]

/-- C1 (amended): the single-label path `_apply_class_weight` rescales the
one-hot-selected weights so their sum equals the batch size (whenever the
selected weights do not sum to zero); the multilabel path
`_apply_multilabel_class_weight` instead normalizes its entrywise weights
so their total equals the number of entries, batch x n_targets; and the
custom-gradient `class_reweighting` of the sequence labeler rescales the
reweighted gradient to preserve the gradient L2 norm, not any weight sum
(`r` stands for `tf.norm g / tf.norm new_g`, characterised by
`r * r * sqNorm new_g = sqNorm g`). -/
theorem C1_class_weight_normalization :
    (∀ cw targets, (rawClassWeights cw targets).sum ≠ 0 →
      (applyClassWeight cw targets).sum = (targets.length : ℚ)) ∧
    (∀ cw targets, ((rawMultilabelWeights cw targets).map List.sum).sum ≠ 0 →
      ((applyMultilabelClassWeight cw targets).map List.sum).sum =
        (numEntries (rawMultilabelWeights cw targets) : ℚ)) ∧
    (∀ cw g r, r * r * sqNorm (newGrad cw g) = sqNorm g →
      sqNorm (classReweightGrad cw g r) = sqNorm g) := by
  refine ⟨?_, ?_, ?_⟩
  · intro cw targets hs
    have hlen : (rawClassWeights cw targets).length = targets.length := by
      simp [rawClassWeights]
    show ((rawClassWeights cw targets).map
        (fun w => w * (((rawClassWeights cw targets).length : ℚ) /
          (rawClassWeights cw targets).sum))).sum = (targets.length : ℚ)
    rw [sum_map_mul_const, hlen, mul_comm, div_mul_cancel₀ _ hs]
  · intro cw targets hs
    show (((rawMultilabelWeights cw targets).map (fun row => row.map
        (fun w => w * ((numEntries (rawMultilabelWeights cw targets) : ℚ) /
          ((rawMultilabelWeights cw targets).map List.sum).sum)))).map
        List.sum).sum = (numEntries (rawMultilabelWeights cw targets) : ℚ)
    rw [sum_map_sum_map_mul_const, mul_comm, div_mul_cancel₀ _ hs]
  · intro cw g r h
    show sqNorm ((newGrad cw g).map (fun x => x * r)) = sqNorm g
    rw [sqNorm_map_mul, ← h]
    ring

/-- C1 (witness): the amended normalization facts at concrete inputs:
single-label weights `[1, 3]` on a two-example one-hot batch sum to the
batch size `2`; the multilabel weights for `[2, 4]` on a one-example batch
total the entry count `2`; the norm-corrected gradient for `g = [3, 4]`,
`class_weights = [2, 2]`, ratio `1/2` keeps `sqNorm = 25`. -/
theorem C1_class_weight_normalization_witness :
    (applyClassWeight [1, 3] [[1, 0], [0, 1]]).sum =
      (([[(1 : ℚ), 0], [0, 1]]).length : ℚ) ∧
    ((applyMultilabelClassWeight [2, 4] [[1, 0]]).map List.sum).sum =
      (numEntries (rawMultilabelWeights [2, 4] [[1, 0]]) : ℚ) ∧
    sqNorm (classReweightGrad [2, 2] [3, 4] (1 / 2)) = sqNorm [3, 4] :=
  ⟨C1_class_weight_normalization.1 [1, 3] [[1, 0], [0, 1]]
      (by norm_num [rawClassWeights, List.zipWith]),
   C1_class_weight_normalization.2.1 [2, 4] [[1, 0]]
      (by norm_num [rawMultilabelWeights, List.zipWith]),
   C1_class_weight_normalization.2.2 [2, 2] [3, 4] (1 / 2)
      (by norm_num [sqNorm, newGrad, List.zipWith])⟩

/-! ## CRF positivity and normalization helpers -/

theorem unaryWeight_pos (E : ℚ → ℚ) (hE : ∀ x, 0 < E x) :
    ∀ (logits : List (List ℚ)) (path : List Nat), 0 < unaryWeight E logits path := by
  intro logits
  induction logits with
  | nil => intro path; simp [unaryWeight]
  | cons row ls ih =>
      intro path
      cases path with
      | nil => simp [unaryWeight]
      | cons c cs =>
          simp only [unaryWeight, List.zipWith_cons_cons, List.prod_cons]
          exact mul_pos (hE _) (by simpa [unaryWeight] using ih cs)

theorem transWeight_pos (E : ℚ → ℚ) (hE : ∀ x, 0 < E x)
    (trans : List (List ℚ)) : ∀ path, 0 < transWeight E trans path := by
  intro path
  induction path with
  | nil => simp [transWeight]
  | cons i rest ih =>
      cases rest with
      | nil => simp [transWeight]
      | cons j rest2 =>
          simp only [transWeight]
          exact mul_pos (hE _) ih

theorem pathWeight_pos (E : ℚ → ℚ) (hE : ∀ x, 0 < E x)
    (logits : List (List ℚ)) (trans : List (List ℚ)) (path : List Nat) :
    0 < pathWeight E logits trans path :=
  mul_pos (unaryWeight_pos E hE logits path) (transWeight_pos E hE trans path)

theorem mem_allPaths (n : Nat) :
    ∀ (path : List Nat), (∀ c ∈ path, c < n) → path ∈ allPaths n path.length := by
  intro path
  induction path with
  | nil => intro; simp [allPaths]
  | cons c cs ih =>
      intro h
      simp only [List.length_cons, allPaths, List.mem_flatMap]
      exact ⟨c, List.mem_range.mpr (h c (by simp)),
        List.mem_map.mpr ⟨cs, ih (fun x hx => h x (by simp [hx])), rfl⟩⟩

theorem pathWeight_le_crfZ (E : ℚ → ℚ) (hE : ∀ x, 0 < E x) (n : Nat)
    (logits : List (List ℚ)) (trans : List (List ℚ)) {L : Nat}
    {path : List Nat} (hmem : path ∈ allPaths n L) :
    pathWeight E logits trans path ≤ crfZ E n logits trans L := by
  apply List.single_le_sum
  · intro x hx
    obtain ⟨p, hp, rfl⟩ := List.mem_map.mp hx
    exact (pathWeight_pos E hE logits trans p).le
  · exact List.mem_map_of_mem _ hmem

theorem crfZ_pos (E : ℚ → ℚ) (hE : ∀ x, 0 < E x) {n : Nat} (hn : 0 < n)
    (logits : List (List ℚ)) (trans : List (List ℚ)) (L : Nat) :
    0 < crfZ E n logits trans L := by
  have hmem : List.replicate L 0 ∈ allPaths n L := by
    have h := mem_allPaths n (List.replicate L 0)
      (fun c hc => by rw [List.eq_of_mem_replicate hc]; exact hn)
    simpa using h
  exact lt_of_lt_of_le (pathWeight_pos E hE logits trans _)
    (pathWeight_le_crfZ E hE n logits trans hmem)

theorem seqProb_pos (E : ℚ → ℚ) (hE : ∀ x, 0 < E x) {n : Nat} (hn : 0 < n)
    (logits : List (List ℚ)) (trans : List (List ℚ)) (len : Nat)
    (tags : List Nat) : 0 < seqProb E n logits trans len tags :=
  div_pos (pathWeight_pos E hE _ trans _) (crfZ_pos E hE hn _ trans len)

theorem seqProb_le_one (E : ℚ → ℚ) (hE : ∀ x, 0 < E x) {n : Nat} (hn : 0 < n)
    (logits : List (List ℚ)) (trans : List (List ℚ)) {len : Nat}
    {tags : List Nat} (hlen : len ≤ tags.length)
    (hvalid : ∀ c ∈ tags, c < n) :
    seqProb E n logits trans len tags ≤ 1 := by
  unfold seqProb
  rw [div_le_one (crfZ_pos E hE hn _ trans len)]
  have hl : (tags.take len).length = len := by
    simp [List.length_take, hlen]
  have hm := mem_allPaths n (tags.take len)
    (fun c hc => hvalid c (List.take_subset _ _ hc))
  rw [hl] at hm
  exact pathWeight_le_crfZ E hE n _ trans hm

/-! ## C2: sequence labeler end-to-end -/

/-- C2 (counterexample): at the claimed shapes — hidden (2, 5, 8), targets
(2, 5), `n_targets = 3`, lengths `[5, 3]` — the `losses` returned by the
sequence labeler is `-crf_log_likelihood`, a vector with one entry per
batch row (here embedded through the per-sequence likelihoods `seqProbs`,
of which `losses` is the elementwise negative logarithm).  It has 2
entries, not the single value a scalar loss would have. -/
theorem C2_counterexample :
    (sequenceLabeler (fun _ => 1) id (List.replicate 3 (List.replicate 8 0))
        (List.replicate 3 0) (List.replicate 3 (List.replicate 3 0)) 3
        (List.replicate 2 (List.replicate 5 (List.replicate 8 0)))
        (List.replicate 2 (List.replicate 5 0)) [5, 3]).seqProbs.length = 2 ∧
    (2 : ℕ) ≠ 1 := by
  constructor
  · simp [sequenceLabeler]
  · decide

/-- C2 (amended): for hidden states of shape (2, 5, 8) (the embedding
dimension plays no role in the shapes below), integer targets of shape
(2, 5) with values in 0..2, `n_targets = 3`, `use_crf=True` and lengths
`[5, 3]`, the sequence labeler returns logits of shape (2, 5, 3), a
per-sequence loss vector with one non-negative entry per sequence — the
CRF likelihood of each sequence lies in (0, 1], so each entry of
`losses = -log seqProbs` is ≥ 0 — rather than a scalar, and
`predict_params` carrying the (3, 3) transition matrix and the lengths. -/
theorem C2_sequence_labeler_end_to_end
    (E : ℚ → ℚ) (hE : ∀ x, 0 < E x)
    (refine : List (List ℚ) → List (List ℚ))
    (href : ∀ s, (refine s).length = s.length)
    (W : List (List ℚ)) (c : List ℚ) (trans : List (List ℚ))
    (hidden : List (List (List ℚ))) (targets : List (List Nat))
    (hb : hidden.length = 2) (hseq : ∀ s ∈ hidden, s.length = 5)
    (hW : W.length = 3) (hc : c.length = 3)
    (htb : targets.length = 2) (hts : ∀ t ∈ targets, t.length = 5)
    (htv : ∀ t ∈ targets, ∀ v ∈ t, v < 3)
    (htr : trans.length = 3) (htrr : ∀ row ∈ trans, row.length = 3) :
    (sequenceLabeler E refine W c trans 3 hidden targets [5, 3]).logits.length = 2 ∧
    (∀ s ∈ (sequenceLabeler E refine W c trans 3 hidden targets [5, 3]).logits,
      s.length = 5 ∧ ∀ r ∈ s, r.length = 3) ∧
    (sequenceLabeler E refine W c trans 3 hidden targets [5, 3]).seqProbs.length = 2 ∧
    (∀ p ∈ (sequenceLabeler E refine W c trans 3 hidden targets [5, 3]).seqProbs,
      0 < p ∧ p ≤ 1) ∧
    (sequenceLabeler E refine W c trans 3 hidden
      targets [5, 3]).transitionMatrix.length = 3 ∧
    (∀ row ∈ (sequenceLabeler E refine W c trans 3 hidden
      targets [5, 3]).transitionMatrix, row.length = 3) ∧
    (sequenceLabeler E refine W c trans 3 hidden
      targets [5, 3]).sequenceLength = [5, 3] := by
  obtain ⟨h0, h1, rfl⟩ := List.length_eq_two.mp hb
  obtain ⟨t0, t1, rfl⟩ := List.length_eq_two.mp htb
  have hdense : ∀ x, (dense W c x).length = 3 := by
    intro x
    simp [dense, List.length_zipWith, hW, hc]
  have hlog : ∀ h, h ∈ [h0, h1] →
      ((refine h).map (dense W c)).length = 5 ∧
      ∀ r ∈ (refine h).map (dense W c), r.length = 3 := by
    intro h hh
    constructor
    · rw [List.length_map, href, hseq h hh]
    · intro r hr
      obtain ⟨x, _, rfl⟩ := List.mem_map.mp hr
      exact hdense x
  refine ⟨rfl, ?_, rfl, ?_, htr, htrr, rfl⟩
  · intro s hs
    simp only [sequenceLabeler, List.map_cons, List.map_nil, List.mem_cons,
      List.not_mem_nil, or_false] at hs
    rcases hs with rfl | rfl
    · exact hlog h0 (by simp)
    · exact hlog h1 (by simp)
  · intro p hp
    simp only [sequenceLabeler, List.map_cons, List.map_nil, List.zip_cons_cons,
      List.zip_nil_right, List.zipWith_cons_cons, List.zipWith_nil_right,
      List.mem_cons, List.not_mem_nil, or_false] at hp
    have ht0 : t0.length = 5 := hts t0 (by simp)
    have ht1 : t1.length = 5 := hts t1 (by simp)
    rcases hp with rfl | rfl
    · exact ⟨seqProb_pos E hE (by norm_num) _ trans _ _,
        seqProb_le_one E hE (by norm_num) _ trans (by rw [ht0])
          (fun v hv => htv t0 (by simp) v hv)⟩
    · exact ⟨seqProb_pos E hE (by norm_num) _ trans _ _,
        seqProb_le_one E hE (by norm_num) _ trans (by rw [ht1]; norm_num)
          (fun v hv => htv t1 (by simp) v hv)⟩

/-- C2 (witness): the amended end-to-end property instantiated at an
all-zeros batch of the claimed shapes with `E = const 1` and the
bidirectional (identity) refinement. -/
theorem C2_sequence_labeler_end_to_end_witness :
    (sequenceLabeler (fun _ => 1) id (List.replicate 3 (List.replicate 8 0))
        (List.replicate 3 0) (List.replicate 3 (List.replicate 3 0)) 3
        (List.replicate 2 (List.replicate 5 (List.replicate 8 0)))
        (List.replicate 2 (List.replicate 5 0)) [5, 3]).logits.length = 2 ∧
    (sequenceLabeler (fun _ => 1) id (List.replicate 3 (List.replicate 8 0))
        (List.replicate 3 0) (List.replicate 3 (List.replicate 3 0)) 3
        (List.replicate 2 (List.replicate 5 (List.replicate 8 0)))
        (List.replicate 2 (List.replicate 5 0)) [5, 3]).transitionMatrix.length
      = 3 ∧
    (sequenceLabeler (fun _ => 1) id (List.replicate 3 (List.replicate 8 0))
        (List.replicate 3 0) (List.replicate 3 (List.replicate 3 0)) 3
        (List.replicate 2 (List.replicate 5 (List.replicate 8 0)))
        (List.replicate 2 (List.replicate 5 0)) [5, 3]).sequenceLength
      = [5, 3] := by
  have h := C2_sequence_labeler_end_to_end (fun _ => 1) (fun _ => one_pos)
    id (fun _ => rfl)
    (List.replicate 3 (List.replicate 8 0)) (List.replicate 3 0)
    (List.replicate 3 (List.replicate 3 0))
    (List.replicate 2 (List.replicate 5 (List.replicate 8 0)))
    (List.replicate 2 (List.replicate 5 0))
    rfl (fun s hs => by rw [List.eq_of_mem_replicate hs]; rfl)
    rfl rfl rfl (fun t ht => by rw [List.eq_of_mem_replicate ht]; rfl)
    (fun t ht v hv => by
      rw [List.eq_of_mem_replicate ht] at hv
      rw [List.eq_of_mem_replicate hv]
      norm_num)
    rfl (fun row hrow => by rw [List.eq_of_mem_replicate hrow]; rfl)
  exact ⟨h.1, h.2.2.2.2.1, h.2.2.2.2.2.2⟩

/-! ## C5: pseudo-label threshold filtering -/

theorem sum_map_E_pos (E : ℚ → ℚ) (hE : ∀ x, 0 < E x) (row : List ℚ)
    (hrow : row ≠ []) : 0 < (row.map E).sum := by
  apply List.sum_pos
  · intro x hx
    obtain ⟨a, _, rfl⟩ := List.mem_map.mp hx
    exact hE a
  · simpa using hrow

theorem softmaxRow_bounds (E : ℚ → ℚ) (hE : ∀ x, 0 < E x) (row : List ℚ)
    (hrow : row ≠ []) : ∀ p ∈ softmaxRow E row, 0 < p ∧ p ≤ 1 := by
  intro p hp
  obtain ⟨x, hx, rfl⟩ := List.mem_map.mp hp
  have hS := sum_map_E_pos E hE row hrow
  refine ⟨div_pos (hE x) hS, ?_⟩
  rw [div_le_one hS]
  exact List.single_le_sum
    (fun y hy => by
      obtain ⟨a, _, rfl⟩ := List.mem_map.mp hy
      exact (hE a).le)
    _ (List.mem_map_of_mem E hx)

theorem le_foldl_max (l : List ℚ) : ∀ acc, acc ≤ l.foldl max acc := by
  induction l with
  | nil => intro acc; simp
  | cons x xs ih =>
      intro acc
      simpa using le_trans (le_max_left acc x) (ih (max acc x))

theorem foldl_max_le (l : List ℚ) :
    ∀ acc B, acc ≤ B → (∀ y ∈ l, y ≤ B) → l.foldl max acc ≤ B := by
  induction l with
  | nil => intro acc B h _; simpa using h
  | cons x xs ih =>
      intro acc B h hall
      simp only [List.foldl_cons]
      exact ih _ _ (max_le h (hall x (by simp)))
        (fun y hy => hall y (by simp [hy]))

theorem reduceMax_pos (l : List ℚ) (hne : l ≠ [])
    (hall : ∀ y ∈ l, 0 < y) : 0 < reduceMax l := by
  cases l with
  | nil => exact absurd rfl hne
  | cons x xs =>
      exact lt_of_lt_of_le (hall x (by simp)) (le_foldl_max xs x)

theorem reduceMax_le (l : List ℚ) (B : ℚ) (hne : l ≠ [])
    (hall : ∀ y ∈ l, y ≤ B) : reduceMax l ≤ B := by
  cases l with
  | nil => exact absurd rfl hne
  | cons x xs =>
      exact foldl_max_le xs x B (hall x (by simp))
        (fun y hy => hall y (by simp [hy]))

theorem meanQ_pos (l : List ℚ) (hne : l ≠ []) (hall : ∀ x ∈ l, 0 < x) :
    0 < meanQ l := by
  unfold meanQ
  apply div_pos (List.sum_pos l hall hne)
  exact_mod_cast List.length_pos.mpr hne

theorem meanQ_le_one (l : List ℚ) (hne : l ≠ []) (hall : ∀ x ∈ l, x ≤ 1) :
    meanQ l ≤ 1 := by
  unfold meanQ
  rw [div_le_one (by exact_mod_cast List.length_pos.mpr hne)]
  calc l.sum ≤ l.length • (1 : ℚ) := List.sum_le_card_nsmul l 1 hall
    _ = l.length := by simp

theorem uSeqProbSoft_pos (E : ℚ → ℚ) (hE : ∀ x, 0 < E x) (r : URow)
    (h1 : r.logits ≠ []) (h2 : ∀ row ∈ r.logits, row ≠ []) :
    0 < uSeqProbSoft E r := by
  unfold uSeqProbSoft
  apply meanQ_pos
  · simpa using h1
  · intro x hx
    obtain ⟨row, hrow, rfl⟩ := List.mem_map.mp hx
    apply reduceMax_pos
    · simpa [softmaxRow] using h2 row hrow
    · intro y hy
      exact (softmaxRow_bounds E hE row (h2 row hrow) y hy).1

theorem uSeqProbSoft_le_one (E : ℚ → ℚ) (hE : ∀ x, 0 < E x) (r : URow)
    (h1 : r.logits ≠ []) (h2 : ∀ row ∈ r.logits, row ≠ []) :
    uSeqProbSoft E r ≤ 1 := by
  unfold uSeqProbSoft
  apply meanQ_le_one
  · simpa using h1
  · intro x hx
    obtain ⟨row, hrow, rfl⟩ := List.mem_map.mp hx
    apply reduceMax_le
    · simpa [softmaxRow] using h2 row hrow
    · intro y hy
      exact (softmaxRow_bounds E hE row (h2 row hrow) y hy).2

/-- C5: an unlabeled row survives `pseudo_label` filtering exactly when
its decoded-sequence probability strictly exceeds `pseudo_thresh`
(`tf.greater`), and retained rows are appended to the labeled batch.
Since the decoded probability always lies in (0, 1] — in CRF mode it is
the CRF likelihood `exp(crf_log_likelihood)` of the decoded path, in the
(spec-modelled) non-CRF mode the sequence mean of the per-token max
softmax probability — `pseudo_thresh = 1` retains no unlabeled row and
`pseudo_thresh = 0` retains every one, in both modes. -/
theorem C5_pseudo_label_threshold
    (E : ℚ → ℚ) (hE : ∀ x, 0 < E x) (n : Nat) (hn : 0 < n)
    (trans : List (List ℚ)) (rows : List URow)
    (hcrf : ∀ r ∈ rows, r.len ≤ r.tags.length ∧ ∀ t ∈ r.tags, t < n)
    (hsoft : ∀ r ∈ rows, r.logits ≠ [] ∧ ∀ row ∈ r.logits, row ≠ []) :
    (∀ (prob : URow → ℚ) (thresh : ℚ) (labeled : List URow) (r : URow),
      r ∈ pseudoLabelBatch labeled prob thresh rows ↔
        r ∈ labeled ∨ (r ∈ rows ∧ thresh < prob r)) ∧
    pseudoRetain (uSeqProbCrf E n trans) 1 rows = [] ∧
    pseudoRetain (uSeqProbCrf E n trans) 0 rows = rows ∧
    pseudoRetain (uSeqProbSoft E) 1 rows = [] ∧
    pseudoRetain (uSeqProbSoft E) 0 rows = rows := by
  refine ⟨?_, ?_, ?_, ?_, ?_⟩
  · intro prob thresh labeled r
    simp [pseudoLabelBatch, pseudoRetain, List.mem_append, List.mem_filter]
  · unfold pseudoRetain
    rw [List.filter_eq_nil_iff]
    intro r hr
    simp only [decide_eq_true_eq, not_lt]
    exact seqProb_le_one E hE hn _ trans (hcrf r hr).1 (hcrf r hr).2
  · unfold pseudoRetain
    rw [List.filter_eq_self]
    intro r hr
    simp only [decide_eq_true_eq]
    exact seqProb_pos E hE hn _ trans _ _
  · unfold pseudoRetain
    rw [List.filter_eq_nil_iff]
    intro r hr
    simp only [decide_eq_true_eq, not_lt]
    exact uSeqProbSoft_le_one E hE r (hsoft r hr).1 (hsoft r hr).2
  · unfold pseudoRetain
    rw [List.filter_eq_self]
    intro r hr
    simp only [decide_eq_true_eq]
    exact uSeqProbSoft_pos E hE r (hsoft r hr).1 (hsoft r hr).2

/-- C5 (witness): the retention behaviour at a concrete two-class,
one-unlabeled-row batch with `E = const 1`: thresholds 1 and 0 in both
probability modes. -/
theorem C5_pseudo_label_threshold_witness :
    pseudoRetain (uSeqProbCrf (fun _ => 1) 2 [[0, 0], [0, 0]]) 1
      [⟨[[0, 0], [0, 0]], 2, [0, 1]⟩] = [] ∧
    pseudoRetain (uSeqProbCrf (fun _ => 1) 2 [[0, 0], [0, 0]]) 0
      [⟨[[0, 0], [0, 0]], 2, [0, 1]⟩] = [⟨[[0, 0], [0, 0]], 2, [0, 1]⟩] ∧
    pseudoRetain (uSeqProbSoft (fun _ => 1)) 1
      [⟨[[0, 0], [0, 0]], 2, [0, 1]⟩] = [] ∧
    pseudoRetain (uSeqProbSoft (fun _ => 1)) 0
      [⟨[[0, 0], [0, 0]], 2, [0, 1]⟩] = [⟨[[0, 0], [0, 0]], 2, [0, 1]⟩] := by
  have h := C5_pseudo_label_threshold (fun _ => 1) (fun _ => one_pos) 2
    (by norm_num) [[0, 0], [0, 0]] [⟨[[0, 0], [0, 0]], 2, [0, 1]⟩]
    (by decide) (by decide)
  exact ⟨h.2.1, h.2.2.1, h.2.2.2.1, h.2.2.2.2⟩

/-! ## C6: zero-divergence consistency loss -/

theorem mseLast_self (a : List ℚ) : mseLast a a = 0 := by
  unfold mseLast meanQ
  rw [List.zipWith_same]
  have h : ∀ x ∈ a.map (fun x => (x - x) * (x - x)), x = 0 := by
    intro x hx
    obtain ⟨y, _, rfl⟩ := List.mem_map.mp hx
    ring
  rw [List.sum_eq_zero h, zero_div]

theorem mse3_self (a : List (List (List ℚ))) : mse3 a a = 0 := by
  unfold mse3 meanQ
  rw [List.zipWith_same]
  have h : ∀ x ∈ (a.map (fun ar => List.zipWith mseLast ar ar)).flatten, x = 0 := by
    intro x hx
    obtain ⟨l, hl, hxl⟩ := List.mem_flatten.mp hx
    obtain ⟨ar, _, rfl⟩ := List.mem_map.mp hl
    rw [List.zipWith_same] at hxl
    obtain ⟨y, _, rfl⟩ := List.mem_map.mp hxl
    exact mseLast_self y
  rw [List.sum_eq_zero h, zero_div]

/-- C6 (counterexample): with the live and EMA models computing the same
(identity-featurizer, identity-projection) function, the `ict`
consistency loss on the two-row unlabeled batch `[[0]], [[1]]` with
shuffle `[1, 0]` is `1/4`, not `0`: the student path mixes the inputs
with its Beta draw `3/4` while the teacher path mixes the EMA logits with
an independent draw `1/4`. -/
theorem C6_counterexample :
    ictULoss (fun x => x) (fun x => x) [[1]] [0] [[[0]], [[1]]] [1, 0]
      [3 / 4, 3 / 4] [1 / 4, 1 / 4] = 1 / 4 ∧ (1 / 4 : ℚ) ≠ 0 := by
  constructor
  · norm_num [ictULoss, mixT, addT, scaleT, gatherT, dense, dot, mse3,
      mseLast, meanQ, List.zipWith, List.zip, List.flatten]
  · norm_num

/-- C6 (amended): the consistency loss of `mean_teacher` vanishes whenever the
live and EMA models compute identical functions, for every unlabeled
batch.  That of `ict` does not in general — the Beta mixing coefficient is
sampled independently for the student path (line 935) and the teacher
path (line 953), and the featurizer need not commute with input
interpolation — but it does vanish when, in addition to identical models,
the two coefficient draws coincide and the composed
featurizer-plus-projection map commutes with the interpolation of the
rows actually mixed. -/
theorem C6_consistency_zero_divergence
    (feat : List (List ℚ) → List (List ℚ)) (W : List (List ℚ)) (c : List ℚ)
    (batch : List (List (List ℚ))) (perm : List Nat) (lam : List ℚ)
    (hperm : ∀ i ∈ perm, i < batch.length)
    (hlen1 : lam.length = batch.length) (hlen2 : perm.length = batch.length)
    (haff : ∀ b ∈ List.range batch.length,
      (feat (mixT (lam.getD b 0) (batch.getD b [])
          (batch.getD (perm.getD b 0) []))).map (dense W c) =
        mixT (lam.getD b 0) ((feat (batch.getD b [])).map (dense W c))
          ((feat (batch.getD (perm.getD b 0) [])).map (dense W c))) :
    meanTeacherULoss feat feat W c batch = 0 ∧
    ictULoss feat feat W c batch perm lam lam = 0 := by
  constructor
  · unfold meanTeacherULoss
    exact mse3_self _
  · unfold ictULoss
    dsimp only
    have hmix :
        (List.zipWith (fun lx y => mixT lx.1 lx.2 y) (lam.zip batch)
            (gatherT batch perm)).map
          (fun x => (feat x).map (dense W c)) =
        List.zipWith (fun lx y => mixT lx.1 lx.2 y)
          (lam.zip (batch.map (fun x => (feat x).map (dense W c))))
          (gatherT (batch.map (fun x => (feat x).map (dense W c))) perm) := by
      apply List.ext_getElem
      · simp [gatherT, List.length_zipWith, List.length_zip, hlen1, hlen2]
      · intro i h1 h2
        have hi : i < batch.length := by
          simpa [gatherT, List.length_zipWith, List.length_zip, hlen1,
            hlen2] using h1
        have hil : i < lam.length := by rw [hlen1]; exact hi
        have hip : i < perm.length := by rw [hlen2]; exact hi
        have hjp : perm[i] < batch.length :=
          hperm _ (List.getElem_mem hip)
        have key := haff i (List.mem_range.mpr hi)
        rw [List.getD_eq_getElem lam 0 hil, List.getD_eq_getElem batch [] hi,
          List.getD_eq_getElem perm 0 hip,
          List.getD_eq_getElem batch [] hjp] at key
        simp only [List.getElem_map, List.getElem_zipWith, List.getElem_zip,
          gatherT]
        rw [List.getD_eq_getElem batch [] hjp,
          List.getD_eq_getElem (batch.map (fun x => (feat x).map (dense W c)))
            [] (by simpa using hjp),
          List.getElem_map]
        exact key
    rw [hmix]
    exact mse3_self _

/-- C6 (witness): the amended statement at a concrete linear model
(identity featurizer, 1 x 1 identity projection) on the batch
`[[0]], [[2]]` with shuffle `[1, 0]` and equal mixing draws `1/2`. -/
theorem C6_consistency_zero_divergence_witness :
    meanTeacherULoss (fun x => x) (fun x => x) [[1]] [0] [[[0]], [[2]]] = 0 ∧
    ictULoss (fun x => x) (fun x => x) [[1]] [0] [[[0]], [[2]]] [1, 0]
      [1 / 2, 1 / 2] [1 / 2, 1 / 2] = 0 :=
  C6_consistency_zero_divergence (fun x => x) [[1]] [0] [[[0]], [[2]]]
    [1, 0] [1 / 2, 1 / 2]
    (by decide) rfl rfl
    (by
      intro b hb
      simp only [List.mem_range, List.length_cons, List.length_nil] at hb
      interval_cases b <;>
        norm_num [mixT, addT, scaleT, dense, dot, List.zipWith])

/-! ## C7: weighted cross-entropy padding invariance -/

theorem sum_map_const_mul (l : List ℚ) (c : ℚ) :
    (l.map (fun x => c * x)).sum = c * l.sum := by
  induction l with
  | nil => simp
  | cons x xs ih => simp [ih]; ring

theorem maskRow_eq (len M : Nat) (h : len ≤ M) :
    maskRow len M = List.replicate len ((1 : ℚ) / len) ++
      List.replicate (M - len) 0 := by
  unfold maskRow
  obtain ⟨k, rfl⟩ := Nat.exists_eq_add_of_le h
  rw [List.range_add, List.map_append, Nat.add_sub_cancel_left, List.map_map]
  congr 1
  · have h1 : ∀ t ∈ List.range len,
        ((if t < len then (1 : ℚ) else 0) / (len : ℚ)) = 1 / (len : ℚ) := by
      intro t ht
      rw [if_pos (List.mem_range.mp ht)]
    rw [List.map_congr_left h1, List.map_const', List.length_range]
  · have h2 : ∀ t ∈ List.range k,
        ((fun t => (if t < len then (1 : ℚ) else 0) / (len : ℚ)) ∘
          (len + ·)) t = (fun _ => (0 : ℚ)) t := by
      intro t ht
      simp only [Function.comp]
      rw [if_neg (by omega), zero_div]
    rw [List.map_congr_left h2, List.map_const', List.length_range]

theorem zipWith_replicate_mul (c : ℚ) :
    ∀ (n : Nat) (l : List ℚ),
      List.zipWith (· * ·) (List.replicate n c) l = (l.take n).map (c * ·) := by
  intro n
  induction n with
  | zero => intro l; simp
  | succ m ih =>
      intro l
      cases l with
      | nil => simp
      | cons x xs => simp [List.replicate_succ, ih xs]

theorem maskRow_weightedSum (x : List ℚ) (len M : Nat)
    (hx : x.length = M) (h1 : 1 ≤ len) (h2 : len ≤ M) :
    (List.zipWith (· * ·) (maskRow len M) x).sum = (x.take len).sum / len := by
  rw [maskRow_eq len M h2]
  have hsplit : List.zipWith (· * ·)
      (List.replicate len ((1 : ℚ) / len) ++ List.replicate (M - len) 0) x =
      List.zipWith (· * ·) (List.replicate len ((1 : ℚ) / len)) (x.take len) ++
      List.zipWith (· * ·) (List.replicate (M - len) 0) (x.drop len) := by
    conv_lhs => rw [← List.take_append_drop len x]
    rw [List.zipWith_append _ _ _ _ _
      (by rw [List.length_replicate, List.length_take]; omega)]
  rw [hsplit, List.sum_append, zipWith_replicate_mul, zipWith_replicate_mul]
  have hz : (((x.drop len).take (M - len)).map ((0 : ℚ) * ·)).sum = 0 := by
    apply List.sum_eq_zero
    intro y hy
    obtain ⟨a, _, rfl⟩ := List.mem_map.mp hy
    ring
  rw [hz, add_zero, List.take_take, min_self, sum_map_const_mul,
    one_div_mul_eq_div]

theorem filter_replicate_of_pos {p : ℚ → Bool} (n : Nat) (a : ℚ)
    (h : p a = true) :
    (List.replicate n a).filter p = List.replicate n a := by
  induction n with
  | zero => rfl
  | succ m ih => simp [List.replicate_succ, List.filter_cons, h, ih]

theorem filter_replicate_of_neg {p : ℚ → Bool} (n : Nat) (a : ℚ)
    (h : p a = false) :
    (List.replicate n a).filter p = [] := by
  induction n with
  | zero => rfl
  | succ m ih => simp [List.replicate_succ, List.filter_cons, h, ih]

theorem maskRow_countNonzero (len M : Nat) (h1 : 1 ≤ len) (h2 : len ≤ M) :
    ((maskRow len M).filter (fun q => decide (q ≠ 0))).length = len := by
  rw [maskRow_eq len M h2, List.filter_append]
  have hc : ((1 : ℚ) / len) ≠ 0 := by
    apply one_div_ne_zero
    have : (0 : ℚ) < len := by exact_mod_cast h1
    exact ne_of_gt this
  rw [filter_replicate_of_pos _ _ (by simpa using hc),
    filter_replicate_of_neg _ _ (by simp)]
  simp

theorem weightedSum_maskWeights (M : Nat) :
    ∀ (lengths : List Nat) (x : List (List ℚ)),
      x.length = lengths.length → (∀ r ∈ x, r.length = M) →
      (∀ l ∈ lengths, 1 ≤ l ∧ l ≤ M) →
      weightedSum (maskWeights lengths M) x =
        (List.zipWith (fun (r : List ℚ) (l : Nat) => (r.take l).sum / (l : ℚ)) x lengths).sum := by
  intro lengths
  induction lengths with
  | nil =>
      intro x hx _ _
      rw [List.length_eq_zero.mp hx]
      rfl
  | cons l ls ih =>
      intro x hx hr hl
      cases x with
      | nil => simp at hx
      | cons r rs =>
          show (List.zipWith (fun wr xr => (List.zipWith (· * ·) wr xr).sum)
              (maskRow l M :: maskWeights ls M) (r :: rs)).sum = _
          rw [List.zipWith_cons_cons, List.sum_cons, List.zipWith_cons_cons,
            List.sum_cons]
          rw [maskRow_weightedSum r l M (hr r (by simp)) (hl l (by simp)).1
            (hl l (by simp)).2]
          have := ih rs (by simpa using hx)
            (fun a ha => hr a (by simp [ha]))
            (fun a ha => hl a (by simp [ha]))
          rw [← this]
          rfl

theorem countNonzero_maskWeights (M : Nat) :
    ∀ lengths : List Nat, (∀ l ∈ lengths, 1 ≤ l ∧ l ≤ M) →
      countNonzero (maskWeights lengths M) = lengths.sum := by
  intro lengths
  induction lengths with
  | nil => intro; rfl
  | cons l ls ih =>
      intro h
      show ((maskRow l M :: maskWeights ls M).map
        (fun r => (r.filter (fun q => decide (q ≠ 0))).length)).sum = _
      rw [List.map_cons, List.sum_cons,
        maskRow_countNonzero l M (h l (by simp)).1 (h l (by simp)).2,
        List.sum_cons]
      have := ih (fun a ha => h a (by simp [ha]))
      rw [← this]
      rfl

theorem ceTensor_length (ce : List ℚ → Nat → ℚ)
    (logits : List (List (List ℚ))) (targets : List (List Nat)) :
    (ceTensor ce logits targets).length = min logits.length targets.length := by
  simp [ceTensor, List.length_zipWith]

theorem ceTensor_row_length (ce : List ℚ → Nat → ℚ) (M : Nat) :
    ∀ (logits : List (List (List ℚ))) (targets : List (List Nat)),
      (∀ s ∈ logits, s.length = M) → (∀ t ∈ targets, t.length = M) →
      ∀ r ∈ ceTensor ce logits targets, r.length = M := by
  intro logits
  induction logits with
  | nil => intro targets _ _ r hr; simp [ceTensor] at hr
  | cons s ss ih =>
      intro targets hs ht r hr
      cases targets with
      | nil => simp [ceTensor] at hr
      | cons t ts =>
          simp only [ceTensor, List.zipWith_cons_cons, List.mem_cons] at hr
          rcases hr with rfl | hr
          · rw [List.length_zipWith, hs s (by simp), ht t (by simp)]
            simp
          · exact ih ts (fun a ha => hs a (by simp [ha]))
              (fun a ha => ht a (by simp [ha])) r (by simpa [ceTensor] using hr)

/-- C7: with the CRF disabled, the loss branch
`sparse_softmax_cross_entropy(targets, logits, weights=mask/lengths)` with
its SUM_BY_NONZERO_WEIGHTS reduction decomposes as
`(sum_b mean-CE of the first len_b tokens of sequence b) / (sum_b len_b)`
— each sequence contributes its per-token cross-entropy averaged over its
own length, scaled by the batch-common divisor, so every sequence
contributes equally regardless of its length — and in particular the loss
is invariant under any change of logits and targets at padding positions
beyond each sequence length.  `ce` is the library cross-entropy kernel, a
function of the logit row and label of one token only; the result holds
for every such kernel.  Sequence lengths are assumed positive and at most the
padded width `M`. -/
theorem C7_xent_padding_invariance
    (ce : List ℚ → Nat → ℚ) (M : Nat) (lengths : List Nat)
    (logits1 logits2 : List (List (List ℚ)))
    (targets1 targets2 : List (List Nat))
    (hb1 : logits1.length = lengths.length)
    (hb2 : logits2.length = lengths.length)
    (ht1 : targets1.length = lengths.length)
    (ht2 : targets2.length = lengths.length)
    (hs1 : ∀ s ∈ logits1, s.length = M) (hs2 : ∀ s ∈ logits2, s.length = M)
    (hr1 : ∀ t ∈ targets1, t.length = M) (hr2 : ∀ t ∈ targets2, t.length = M)
    (hl : ∀ l ∈ lengths, 1 ≤ l ∧ l ≤ M)
    (hagree : ∀ b, b < lengths.length →
      (logits1.getD b []).take (lengths.getD b 0) =
        (logits2.getD b []).take (lengths.getD b 0) ∧
      (targets1.getD b []).take (lengths.getD b 0) =
        (targets2.getD b []).take (lengths.getD b 0)) :
    seqXentLoss ce logits1 targets1 lengths =
      (List.zipWith (fun (r : List ℚ) (l : Nat) => (r.take l).sum / (l : ℚ))
        (ceTensor ce logits1 targets1) lengths).sum / (lengths.sum : ℚ) ∧
    seqXentLoss ce logits1 targets1 lengths =
      seqXentLoss ce logits2 targets2 lengths := by
  have hmax : ∀ (targets : List (List Nat)), targets.length = lengths.length →
      (∀ t ∈ targets, t.length = M) → lengths ≠ [] → maxlenOf targets = M := by
    intro targets hlen hrow hne
    cases targets with
    | nil =>
        exact absurd (by simpa using hlen.symm) hne
    | cons t ts =>
        exact hrow t (by simp)
  have hdecomp : ∀ (logits : List (List (List ℚ))) (targets : List (List Nat)),
      logits.length = lengths.length → targets.length = lengths.length →
      (∀ s ∈ logits, s.length = M) → (∀ t ∈ targets, t.length = M) →
      seqXentLoss ce logits targets lengths =
        (List.zipWith (fun (r : List ℚ) (l : Nat) => (r.take l).sum / (l : ℚ))
          (ceTensor ce logits targets) lengths).sum / (lengths.sum : ℚ) := by
    intro logits targets hlb htb hs hr
    cases hne : lengths with
    | nil =>
        subst hne
        rw [List.length_eq_zero.mp hlb, List.length_eq_zero.mp htb]
        simp [seqXentLoss, weightedSum, maskWeights, countNonzero, ceTensor]
    | cons l0 ls0 =>
        rw [← hne]
        unfold seqXentLoss
        rw [hmax targets htb hr (by rw [hne]; simp)]
        rw [weightedSum_maskWeights M lengths (ceTensor ce logits targets)
          (by rw [ceTensor_length, hlb, htb, min_self])
          (ceTensor_row_length ce M logits targets hs hr) hl]
        rw [countNonzero_maskWeights M lengths hl]
  have h1 := hdecomp logits1 targets1 hb1 ht1 hs1 hr1
  have h2 := hdecomp logits2 targets2 hb2 ht2 hs2 hr2
  refine ⟨h1, ?_⟩
  rw [h1, h2]
  have hnum : List.zipWith (fun (r : List ℚ) (l : Nat) => (r.take l).sum / (l : ℚ))
      (ceTensor ce logits1 targets1) lengths =
      List.zipWith (fun (r : List ℚ) (l : Nat) => (r.take l).sum / (l : ℚ))
        (ceTensor ce logits2 targets2) lengths := by
    apply List.ext_getElem
    · rw [List.length_zipWith, List.length_zipWith, ceTensor_length,
        ceTensor_length, hb1, ht1, hb2, ht2]
    · intro i hi1 hi2
      have hiL : i < lengths.length := by
        rw [List.length_zipWith, ceTensor_length, hb1, ht1, min_self,
          min_self] at hi1
        exact hi1
      have hiA : i < logits1.length := by rw [hb1]; exact hiL
      have hiB : i < targets1.length := by rw [ht1]; exact hiL
      have hiC : i < logits2.length := by rw [hb2]; exact hiL
      have hiD : i < targets2.length := by rw [ht2]; exact hiL
      obtain ⟨e1, e2⟩ := hagree i hiL
      rw [List.getD_eq_getElem logits1 [] hiA,
        List.getD_eq_getElem logits2 [] hiC,
        List.getD_eq_getElem lengths 0 hiL] at e1
      rw [List.getD_eq_getElem targets1 [] hiB,
        List.getD_eq_getElem targets2 [] hiD,
        List.getD_eq_getElem lengths 0 hiL] at e2
      simp only [ceTensor, List.getElem_zipWith]
      rw [List.take_zipWith, List.take_zipWith, e1, e2]
  rw [hnum]

/-- C7 (witness): the decomposition and the padding invariance at a
concrete two-sequence batch of width 2 with lengths `[2, 1]`: the second
inputs differ from the first only at the padding position of sequence 2,
and the loss agrees. -/
theorem C7_xent_padding_invariance_witness :
    seqXentLoss (fun row t => row.getD t 0) [[[1], [2]], [[3], [4]]]
        [[0, 0], [0, 0]] [2, 1] =
      (List.zipWith (fun (r : List ℚ) (l : Nat) => (r.take l).sum / (l : ℚ))
        (ceTensor (fun row t => row.getD t 0) [[[1], [2]], [[3], [4]]]
          [[0, 0], [0, 0]]) [2, 1]).sum / (([2, 1] : List Nat).sum : ℚ) ∧
    seqXentLoss (fun row t => row.getD t 0) [[[1], [2]], [[3], [4]]]
        [[0, 0], [0, 0]] [2, 1] =
      seqXentLoss (fun row t => row.getD t 0) [[[1], [2]], [[3], [9]]]
        [[0, 0], [0, 1]] [2, 1] :=
  C7_xent_padding_invariance (fun row t => row.getD t 0) 2 [2, 1]
    [[[1], [2]], [[3], [4]]] [[[1], [2]], [[3], [9]]]
    [[0, 0], [0, 0]] [[0, 0], [0, 1]]
    rfl rfl rfl rfl
    (by intro s hs; fin_cases hs <;> simp)
    (by intro s hs; fin_cases hs <;> simp)
    (by intro t ht; fin_cases ht <;> simp)
    (by intro t ht; fin_cases ht <;> simp)
    (by intro l hlm; fin_cases hlm <;> omega)
    (by
      intro b hb
      norm_num at hb
      interval_cases b <;> exact ⟨rfl, rfl⟩)

/-! ## C9: multilabel CRF decomposition -/

/-- C9: unrolling the multilabel loop (CRF path, targets present, no class
weights): the `logits[i]` index into the growing list resolves to the
binary chain for class `i` — a 2-way stack of (pad-class column, class-i
column) — `transition_params[-1]` resolves to the class-own learned
matrix `Transition_matrix_i` (declared with shape `[2, 2]`), and the
accumulated loss is exactly the sum over the non-pad classes of the
per-chain CRF negative log-likelihoods `-ll`. -/
theorem C9_multilabel_decomposition
    (ll : List (List (List ℚ)) → List (List Nat) → List Nat → List (List ℚ) → ℚ)
    (T : Nat → List (List ℚ)) (logits : List (List (List ℚ)))
    (tgt : Nat → List (List Nat)) (lengths : List Nat) (pad n : Nat) :
    (multilabelLoop ll T logits tgt lengths pad n).transitionParams =
      (List.range n).map T ∧
    (multilabelLoop ll T logits tgt lengths pad n).logitsList =
      (List.range n).map (chainLogits logits pad) ∧
    (multilabelLoop ll T logits tgt lengths pad n).loss =
      -(((List.range n).filter (fun i => decide (i ≠ pad))).map
          (fun i => ll (chainLogits logits pad i) (tgt i) lengths (T i))).sum := by
  induction n with
  | zero => exact ⟨rfl, rfl, by simp [multilabelLoop]⟩
  | succ m ih =>
      obtain ⟨ih1, ih2, ih3⟩ := ih
      have hstep : multilabelLoop ll T logits tgt lengths pad (m + 1) =
          multilabelStep ll T logits tgt lengths pad
            (multilabelLoop ll T logits tgt lengths pad m) m := by
        unfold multilabelLoop
        rw [List.range_succ, List.foldl_append]
        rfl
      rw [hstep]
      unfold multilabelStep
      dsimp only
      rw [ih1, ih2, ih3]
      have hmapsucc : (List.range m).map (chainLogits logits pad) ++
          [chainLogits logits pad m] =
          (List.range (m + 1)).map (chainLogits logits pad) := by
        rw [List.range_succ, List.map_append]
        rfl
      refine ⟨?_, ?_, ?_⟩
      · rw [List.range_succ, List.map_append]
        rfl
      · exact hmapsucc
      · have hget : (((List.range m).map (chainLogits logits pad) ++
            [chainLogits logits pad m]).getD m []) =
            chainLogits logits pad m := by
          rw [hmapsucc, List.getD_eq_getElem _ _ (by simp), List.getElem_map,
            List.getElem_range]
        have hlast : (((List.range m).map T ++ [T m]).getLastD []) = T m :=
          List.getLastD_concat _ _ _
        rw [hget, hlast]
        by_cases hpad : m = pad
        · subst hpad
          rw [if_neg (by simp)]
          rw [List.range_succ, List.filter_append]
          simp
        · rw [if_pos hpad]
          rw [List.range_succ, List.filter_append]
          simp [hpad]
          ring

/-- C3 (counterexample): at training fraction 0 with `ssl_loss_coef = 1`
and unsupervised loss `1`, `mean_teacher` adds `1` to the supervised mean,
while the warmup-floored coefficient the claim prescribes is `0` there. -/
theorem C3_counterexample :
    meanTeacherFinalLoss [0] 1 1 0 - meanQ [0] = 1 ∧
    sslLossCoef 1 0 * 1 = 0 ∧ (1 : ℚ) ≠ 0 := by
  refine ⟨?_, ?_, by norm_num⟩
  · norm_num [meanTeacherFinalLoss, meanQ]
  · norm_num [sslLossCoef, warmupConstant]

/-- C3 (amended): only `ict` scales its unsupervised term by the
warmup-scheduled coefficient `max(0, ssl_loss_coef * warmup_constant(frac,
0.25))`, which is `0` at progress fraction `0`, nonnegative, and
non-decreasing in the fraction for nonnegative `ssl_loss_coef`;
`mean_teacher` (which computes the coefficient on lines 1141-1146 but
never applies it) and `vat` add the raw `ssl_loss_coef * unsupervised
loss`, independent of training progress. -/
theorem C3_ssl_warmup_coefficient :
    (∀ supLoss uLoss ssl, ictFinalLoss supLoss uLoss ssl 0 = meanQ supLoss) ∧
    (∀ supLoss uLoss ssl frac,
      ictFinalLoss supLoss uLoss ssl frac - meanQ supLoss =
        sslLossCoef ssl frac * uLoss) ∧
    (∀ ssl frac, 0 ≤ sslLossCoef ssl frac) ∧
    (∀ ssl f g, 0 ≤ ssl → f ≤ g → sslLossCoef ssl f ≤ sslLossCoef ssl g) ∧
    (∀ supLoss uLoss ssl f g,
      meanTeacherFinalLoss supLoss uLoss ssl f =
        meanTeacherFinalLoss supLoss uLoss ssl g) ∧
    (∀ supLoss uLoss ssl frac,
      meanTeacherFinalLoss supLoss uLoss ssl frac - meanQ supLoss =
        ssl * uLoss) ∧
    (∀ supLoss advLoss ssl,
      vatFinalLoss supLoss advLoss ssl - meanQ supLoss = ssl * advLoss) := by
  refine ⟨?_, ?_, ?_, ?_, ?_, ?_, ?_⟩
  · intro s u ssl
    norm_num [ictFinalLoss, sslLossCoef, warmupConstant]
  · intro s u ssl f
    simp [ictFinalLoss]
  · intro ssl frac
    exact le_max_left 0 _
  · intro ssl f g hssl hfg
    unfold sslLossCoef warmupConstant
    gcongr
  · intro s u ssl f g
    rfl
  · intro s u ssl frac
    simp [meanTeacherFinalLoss]
  · intro s a ssl
    simp [vatFinalLoss]

/-- C3 (witness): the coefficient is monotone from fraction `0` to `1/8`
at `ssl_loss_coef = 1`, and the `ict` loss at fraction `0` is exactly the
supervised mean. -/
theorem C3_ssl_warmup_coefficient_witness :
    sslLossCoef 1 0 ≤ sslLossCoef 1 (1 / 8) ∧
    ictFinalLoss [0] 1 1 0 = meanQ [0] :=
  ⟨C3_ssl_warmup_coefficient.2.2.2.1 1 0 (1 / 8) (by norm_num) (by norm_num),
   C3_ssl_warmup_coefficient.1 [0] 1 1⟩

/-! ## C4: TSA degenerate batch -/

/-- C4 (counterexample): with every labeled example removed by the TSA
filter (`filteredNll = []`), adversarial loss `1` and `ssl_loss_coef = 1`,
`vat` returns `1`, not `0`: the returned loss still contains the
unsupervised term. -/
theorem C4_counterexample :
    vatReturnedLoss [] 1 1 = some 1 ∧ some (1 : ℚ) ≠ some (0 : ℚ) := by
  constructor
  · norm_num [vatReturnedLoss, tsaGuardedSupLoss]
  · simp

/-- C4 (amended): when the TSA filter removes every labeled example, the
`tf.cond` guard makes the supervised component exactly `0`, and the loss
returned by `vat` / `mean_teacher` is the well-defined value
`ssl_loss_coef * unsupervised loss` — no division-by-zero or NaN, though
the guard is what prevents it: the unguarded mean of the empty
per-example loss vector is NaN (`none`).  The returned loss is zero only
when the unsupervised term happens to vanish. -/
theorem C4_tsa_degenerate_batch (advLoss uLoss ssl : ℚ) :
    vatReturnedLoss [] advLoss ssl = some (ssl * advLoss) ∧
    meanTeacherReturnedLoss [] uLoss ssl = some (ssl * uLoss) ∧
    tsaGuardedSupLoss [] = some 0 ∧
    meanOpt ([] : List ℚ) = none := by
  refine ⟨?_, ?_, rfl, rfl⟩ <;>
    simp [vatReturnedLoss, meanTeacherReturnedLoss, tsaGuardedSupLoss]

/-! ## C8: regressor loss branches -/

/-- C8 (counterexample): the claim says the `L1` branch returns the mean
absolute error.  For outputs `[0, 2]` and targets `[1, 0]` the code
returns the elementwise tensor `tf.abs(outputs - targets) = [1, 2]`, not
the scalar mean `3/2`. -/
theorem C8_counterexample :
    regressorLoss "L1" [0, 2] [1, 0] =
      Except.ok (RegLoss.elementwise [1, 2]) ∧
    Except.ok (RegLoss.elementwise [1, 2]) ≠
      (Except.ok (RegLoss.scalar (3 / 2)) : Except String RegLoss) := by
  constructor
  · simp only [regressorLoss]
    rw [if_neg (by decide), if_pos (by decide)]
    norm_num [List.zipWith]
  · intro h
    injection h with h1
    exact RegLoss.noConfusion h1

/-- C8 (amended): with targets present the regressor loss is the half
squared error, summed (`tf.nn.l2_loss`), when the configured kind
upper-cases to `"L2"`; the elementwise absolute error (`tf.abs`, with any
reduction left to the training loop — not the mean) when it upper-cases
to `"L1"`; and for any other kind the call itself returns a descriptive
`FinetuneError` naming the offending value, so the failure is not
deferred to execution. -/
theorem C8_regressor_loss_branches (kind : String) (outputs targets : List ℚ) :
    (pyUpper kind = "L2" →
      regressorLoss kind outputs targets =
        Except.ok (RegLoss.scalar
          (sqNorm (List.zipWith (· - ·) outputs targets) / 2))) ∧
    (pyUpper kind = "L1" →
      regressorLoss kind outputs targets =
        Except.ok (RegLoss.elementwise
          ((List.zipWith (· - ·) outputs targets).map (fun d => |d|)))) ∧
    (pyUpper kind ≠ "L2" → pyUpper kind ≠ "L1" →
      regressorLoss kind outputs targets =
        Except.error
          ("regression_loss needs to be either L1 or L2, instead it is "
            ++ kind)) := by
  refine ⟨?_, ?_, ?_⟩
  · intro h
    simp only [regressorLoss, h, if_pos]
    have : sqNorm (List.zipWith (· - ·) outputs targets) =
        (List.zipWith (fun o t => (o - t) * (o - t)) outputs targets).sum := by
      simp [sqNorm, List.map_zipWith]
    rw [this]
  · intro h
    simp only [regressorLoss, h]
    rw [if_neg (by decide), if_pos (by decide)]
    rw [List.map_zipWith]
  · intro h2 h1
    simp only [regressorLoss]
    rw [if_neg h2, if_neg h1]

/-- C8 (witness): the three branches evaluated concretely, with the lower
case kinds `"l2"` and `"l1"` exercising the case-insensitive comparison
and `"huber"` exercising the call-time error. -/
theorem C8_regressor_loss_branches_witness :
    regressorLoss "l2" [3, 1] [1, 2] =
      Except.ok (RegLoss.scalar
        (sqNorm (List.zipWith (· - ·) [(3 : ℚ), 1] [1, 2]) / 2)) ∧
    regressorLoss "l1" [3, 1] [1, 2] =
      Except.ok (RegLoss.elementwise
        ((List.zipWith (· - ·) [(3 : ℚ), 1] [1, 2]).map (fun d => |d|))) ∧
    regressorLoss "huber" [3, 1] [1, 2] =
      Except.error
        ("regression_loss needs to be either L1 or L2, instead it is "
          ++ "huber") :=
  ⟨(C8_regressor_loss_branches "l2" [3, 1] [1, 2]).1 (by decide),
   (C8_regressor_loss_branches "l1" [3, 1] [1, 2]).2.1 (by decide),
   (C8_regressor_loss_branches "huber" [3, 1] [1, 2]).2.2 (by decide)
     (by decide)⟩

/-! ## C10: unbound device name in the CRF branches -/

/-- C10: in `vat` and `mean_teacher` the CRF device expression
`"CPU:0" if train else device` reads the bare name `device`, which is
bound in neither function (it is bound in `ict`, line 898).  With
`train=True` Python never evaluates `device`; with targets present,
`use_crf=True` and `train=False` the read raises `NameError` (`none`), so
both functions fail instead of returning their result dictionary — the
code contradicts the intent visible in `ict` and `sequence_labeler`. -/
theorem C10_crf_device_name_unbound :
    crfDeviceArg true vatLocalNames = some "CPU:0" ∧
    crfDeviceArg false vatLocalNames = none ∧
    crfDeviceArg false meanTeacherLocalNames = none ∧
    crfDeviceArg false ictLocalNames = some "device" := by
  refine ⟨rfl, ?_, ?_, ?_⟩ <;> decide

end TargetBlocks
